import Mathlib

/-!
Verification of the git-analyzer aggregation core.

Shallow embedding of the two aggregation components of the repository:
`CommitAnalyzer` (`packages/core/src/analyzers/commits.ts`) and
`FileAnalyzer`, together with the error taxonomy of
`packages/core/src/utils/errors.ts` and the shapes of
`packages/core/src/types/files.ts`.

Modelling conventions:
* JavaScript `Date` values are their epoch-millisecond timestamps (`ℤ`,
  the value of `Date.prototype.getTime`); `Date` comparison compares
  these numbers.
* `Date.prototype.getHours` returns the hour of day in the execution
  environment's local time.  The environment is modelled by its fixed
  UTC offset in minutes (`tzOffsetMin`, local time = UTC + offset);
  an offset of `0` is a UTC environment.
* JavaScript `Map` iterates in key-insertion order; it is embedded as an
  association list where a new key is appended at the end and an update
  rewrites the (unique) entry in place.  `Set<string>` is embedded as a
  duplicate-free list in insertion order.
* `Array.prototype.sort` is a stable sort (ECMAScript 2019); the
  comparators used by the source are consistent, so the result is the
  unique stable arrangement, embedded via `List.insertionSort` with the
  corresponding descending relation.
* Arithmetic on JavaScript numbers is idealised as exact arithmetic
  (`ℤ` for timestamps and line counts, `ℚ` where the source divides);
  `Math.round` / `toFixed(2)` are half-up rounding on the exact value.
* `throw` / `try`-`catch` is embedded as `Except`.  The `catch` blocks of
  both `analyze` methods are unreachable in the embedding because the
  embedded bodies are total.
-/

namespace GitAnalyzer

/-- `AnalysisErrorType` enum of `types/files.ts`. -/
inductive AnalysisErrorType where
  | INVALID_REPOSITORY
  | GIT_OPERATION_FAILED
  | INVALID_OPTIONS
  | ANALYSIS_FAILED
deriving DecidableEq, Repr

/-- `AnalysisError` of `utils/errors.ts`: carries its classification and
message (stack-trace bookkeeping is dropped). -/
structure AnalysisError where
  type : AnalysisErrorType
  message : String
deriving DecidableEq, Repr

/-- The `AnalysisFailedError` subclass constructor of `utils/errors.ts`:
type `ANALYSIS_FAILED`, message prefixed with `Analysis failed: `. -/
def analysisFailedError (message : String) : AnalysisError :=
  { type := AnalysisErrorType.ANALYSIS_FAILED
    message := "Analysis failed: " ++ message }

/-- `Commit` record (`types/index.ts`): hash, author display name, author
email, timestamp (epoch ms), subject, refs, body. -/
structure Commit where
  hash : String
  author : String
  email : String
  date : ℤ
  message : String
  refs : String
  body : String
deriving DecidableEq, Repr

/-- `Author` statistic (`types/index.ts`). -/
structure Author where
  name : String
  email : String
  commitCount : ℕ
  firstCommit : ℤ
  lastCommit : ℤ
deriving DecidableEq, Repr

/-- `DateRange` part of `CommitAnalysis`. -/
structure DateRange where
  earliest : ℤ
  latest : ℤ
  spanDays : ℤ
deriving DecidableEq, Repr

/-- `CommitAnalysis` result shape (`types/index.ts`).  `commitsByDay` is
keyed by the UTC day number (the `YYYY-MM-DD` ISO string of
`toISOString().split('T')[0]` is in bijection with it), `commitsByHour`
by the hour number. -/
structure CommitAnalysis where
  totalCommits : ℕ
  dateRange : DateRange
  authors : List Author
  topAuthors : List Author
  commitsByDay : List (ℤ × ℕ)
  commitsByHour : List (ℤ × ℕ)
  averageCommitsPerDay : ℚ
deriving DecidableEq, Repr

/-- `Map.set` / update step of `CommitAnalyzer.extractAuthors` for one
commit: key `` `${commit.author}<${commit.email}>` ``. -/
def authorKey (c : Commit) : String :=
  c.author ++ "<" ++ c.email ++ ">"

/-- The fresh entry inserted when the key is absent: count `0`,
first/last commit set to the commit's date (lines 54-60 of
`commits.ts`). -/
def mkAuthor (c : Commit) : Author :=
  { name := c.author
    email := c.email
    commitCount := 0
    firstCommit := c.date
    lastCommit := c.date }

/-- The unconditional per-commit mutation of the stored entry
(lines 63-72 of `commits.ts`): increment the count, lower the first
and raise the last commit timestamp. -/
def updateAuthor (c : Commit) (a : Author) : Author :=
  { a with
    commitCount := a.commitCount + 1
    firstCommit := if c.date < a.firstCommit then c.date else a.firstCommit
    lastCommit := if c.date > a.lastCommit then c.date else a.lastCommit }

/-- One iteration of the `extractAuthors` loop on the author map:
update the entry of `authorKey c` in place, or append a fresh entry
(`Map` insertion-order semantics). -/
def insertCommitAuthor (c : Commit) : List (String × Author) → List (String × Author)
  | [] => [(authorKey c, updateAuthor c (mkAuthor c))]
  | (k, a) :: rest =>
    if k = authorKey c then (k, updateAuthor c a) :: rest
    else (k, a) :: insertCommitAuthor c rest

/-- `CommitAnalyzer.extractAuthors`. -/
def extractAuthors (commits : List Commit) : List (String × Author) :=
  commits.foldl (fun m c => insertCommitAuthor c m) []

/-- The descending comparison used by the rankings: `a` may precede `b`
exactly when `key b ≤ key a`.  A stable sort under this relation is the
behaviour of `.sort((a, b) => key(b) - key(a))`. -/
def descBy {α β : Type} (key : α → β) [LinearOrder β] : α → α → Prop :=
  fun a b => key b ≤ key a

instance {α β : Type} (key : α → β) [LinearOrder β] : DecidableRel (descBy key) :=
  fun a b => inferInstanceAs (Decidable (key b ≤ key a))

instance {α β : Type} (key : α → β) [LinearOrder β] : IsTotal α (descBy key) :=
  ⟨fun a b => le_total (key b) (key a)⟩

instance {α β : Type} (key : α → β) [LinearOrder β] : IsTrans α (descBy key) :=
  ⟨fun _ _ _ hab hbc => le_trans hbc hab⟩

/-- Stable descending sort by a key: the embedding of
`.sort((a, b) => key(b) - key(a))` on a stable `Array.prototype.sort`. -/
def sortByDesc {α β : Type} (key : α → β) [LinearOrder β] (l : List α) : List α :=
  l.insertionSort (descBy key)

/-- `CommitAnalyzer.getTopAuthors`: values in insertion order, sorted by
commit count descending, truncated to `count`. -/
def getTopAuthors (authors : List (String × Author)) (count : ℕ) : List Author :=
  (sortByDesc (fun a => a.commitCount) (authors.map Prod.snd)).take count

/-- `setUTCHours(0, 0, 0, 0)`: the epoch millisecond of the start of the
UTC calendar day containing `t` (floor to a multiple of 86 400 000). -/
def startOfUTCDay (t : ℤ) : ℤ :=
  86400000 * (t.fdiv 86400000)

/-- `Math.round`: half-up rounding, `⌊q + 1/2⌋`, written as an integer
floor division. -/
def jsRound (q : ℚ) : ℤ :=
  (2 * q.num + (q.den : ℤ)).fdiv (2 * (q.den : ℤ))

/-- `Math.round(a / b)` on the exact quotient, for a positive divisor
`b`: `⌊a/b + 1/2⌋ = ⌊(2a + b) / 2b⌋`. -/
def jsRoundDiv (a b : ℤ) : ℤ :=
  (2 * a + b).fdiv (2 * b)

/-- Half-up rounding to two decimal places:
`parseFloat(x.toFixed(2))` on the exact value. -/
def roundTo2 (q : ℚ) : ℚ :=
  ((jsRound (q * 100) : ℤ) : ℚ) / 100

/-- `CommitAnalyzer.calculateDateRange` on a non-empty list `c :: cs`:
`earliest`/`latest` via `Math.min`/`Math.max` over the timestamps, day
span from the UTC-day-normalized endpoints
(`Math.round(Δ / 86400000) + 1`, then `spanDays || 1`). -/
def calculateDateRange (c : Commit) (cs : List Commit) : DateRange :=
  let earliest := cs.foldl (fun m x => min m x.date) c.date
  let latest := cs.foldl (fun m x => max m x.date) c.date
  let startDay := startOfUTCDay earliest
  let endDay := startOfUTCDay latest
  let spanDays : ℤ := jsRoundDiv (endDay - startDay) 86400000 + 1
  { earliest := earliest
    latest := latest
    spanDays := if spanDays = 0 then 1 else spanDays }

/-- `Map.set(k, (m.get(k) || 0) + 1)`: bump the counter of `k`, appending
`(k, 1)` if the key is absent. -/
def bumpKey (k : ℤ) : List (ℤ × ℕ) → List (ℤ × ℕ)
  | [] => [(k, 1)]
  | (k', v) :: rest =>
    if k' = k then (k', v + 1) :: rest
    else (k', v) :: bumpKey k rest

/-- The UTC day number of a timestamp (the day whose ISO date
`toISOString().split('T')[0]` names). -/
def utcDayNumber (t : ℤ) : ℤ :=
  t.fdiv 86400000

/-- `CommitAnalyzer.groupCommitsByDay`. -/
def groupCommitsByDay (commits : List Commit) : List (ℤ × ℕ) :=
  commits.foldl (fun m c => bumpKey (utcDayNumber c.date) m) []

/-- `Date.prototype.getHours` in an environment with fixed UTC offset
`tzOffsetMin` minutes: the hour of day (0-23) of the local civil time. -/
def hourOfDay (tzOffsetMin : ℤ) (t : ℤ) : ℤ :=
  ((t + tzOffsetMin * 60000).fdiv 3600000).emod 24

/-- All 24 hour buckets pre-initialized to zero (lines 133-135 of
`commits.ts`). -/
def initHours : List (ℤ × ℕ) :=
  (List.range 24).map (fun i => ((i : ℤ), 0))

/-- `CommitAnalyzer.groupCommitsByHour`: counts at `commit.date.getHours()`,
i.e. the local hour of the environment. -/
def groupCommitsByHour (tzOffsetMin : ℤ) (commits : List Commit) : List (ℤ × ℕ) :=
  commits.foldl (fun m c => bumpKey (hourOfDay tzOffsetMin c.date) m) initHours

/-- `CommitAnalyzer.calculateAverageCommitsPerDay`:
`parseFloat((totalCommits / spanDays).toFixed(2))`, written with the
integer rounding `jsRoundDiv` (for the positive `spanDays` of every
call site this equals `roundTo2` of the exact quotient, proved below). -/
def calculateAverageCommitsPerDay (totalCommits : ℕ) (spanDays : ℤ) : ℚ :=
  ((jsRoundDiv (100 * totalCommits) spanDays : ℤ) : ℚ) / 100

/-- The body of `CommitAnalyzer.analyze` on a non-empty input
`c :: cs` (the `try` block; its `catch` is unreachable because the
embedded body is total). -/
def commitAnalyzeCore (tzOffsetMin : ℤ) (c : Commit) (cs : List Commit) : CommitAnalysis :=
  let commits := c :: cs
  let authors := extractAuthors commits
  let topAuthors := getTopAuthors authors 10
  let dateRange := calculateDateRange c cs
  { totalCommits := commits.length
    dateRange := dateRange
    authors := authors.map Prod.snd
    topAuthors := topAuthors
    commitsByDay := groupCommitsByDay commits
    commitsByHour := groupCommitsByHour tzOffsetMin commits
    averageCommitsPerDay := calculateAverageCommitsPerDay commits.length dateRange.spanDays }

/-- `CommitAnalyzer.analyze`: throws `AnalysisFailedError` on an empty
list, otherwise returns the aggregate. -/
def commitAnalyze (tzOffsetMin : ℤ) (commits : List Commit) :
    Except AnalysisError CommitAnalysis :=
  match commits with
  | [] => Except.error (analysisFailedError "No commits to analyze")
  | c :: cs => Except.ok (commitAnalyzeCore tzOffsetMin c cs)

/-- `FileChange` (`types/files.ts`): one per-file entry of a commit. -/
structure FileChange where
  file : String
  changes : ℤ
  insertions : ℤ
  deletions : ℤ
  binary : Bool
deriving DecidableEq, Repr

/-- The `diffSummary` record attached to a `CommitWithFiles`. -/
structure DiffSummary where
  changed : ℤ
  insertions : ℤ
  deletions : ℤ
deriving DecidableEq, Repr

/-- `CommitWithFiles` (`types/files.ts`). -/
structure CommitWithFiles where
  hash : String
  author : String
  email : String
  date : ℤ
  message : String
  refs : String
  body : String
  files : List FileChange
  diffSummary : DiffSummary
deriving DecidableEq, Repr

/-- `FileStats` (`types/files.ts`).  `authors` embeds the
`Set<string>` of author emails as its insertion-ordered element list. -/
structure FileStats where
  path : String
  changeCount : ℕ
  totalChanges : ℤ
  totalInsertions : ℤ
  totalDeletions : ℤ
  authors : List String
  firstSeen : ℤ
  lastModified : ℤ
deriving DecidableEq, Repr

/-- `FileAnalysis` result shape (`types/files.ts`). -/
structure FileAnalysis where
  totalFiles : ℕ
  totalChanges : ℤ
  totalInsertions : ℤ
  totalDeletions : ℤ
  netChange : ℤ
  hotspots : List FileStats
  largestChanges : List FileStats
  files : List FileStats
deriving DecidableEq, Repr

/-- `Set.add`: append the element unless already present. -/
def setAdd (s : List String) (x : String) : List String :=
  if x ∈ s then s else s ++ [x]

/-- The fresh per-path entry inserted when the path is absent
(lines 69-78 of the `FileAnalyzer` source). -/
def mkFileStats (path : String) (date : ℤ) : FileStats :=
  { path := path
    changeCount := 0
    totalChanges := 0
    totalInsertions := 0
    totalDeletions := 0
    authors := []
    firstSeen := date
    lastModified := date }

/-- The unconditional per-entry mutation of the stored stats
(lines 81-94 of the `FileAnalyzer` source). -/
def updateFileStats (c : CommitWithFiles) (fc : FileChange) (s : FileStats) : FileStats :=
  { s with
    changeCount := s.changeCount + 1
    totalChanges := s.totalChanges + fc.changes
    totalInsertions := s.totalInsertions + fc.insertions
    totalDeletions := s.totalDeletions + fc.deletions
    authors := setAdd s.authors c.email
    firstSeen := if c.date < s.firstSeen then c.date else s.firstSeen
    lastModified := if c.date > s.lastModified then c.date else s.lastModified }

/-- One iteration of the inner `buildFileStats` loop on the file map:
update the entry of `fc.file` in place, or append a fresh entry. -/
def insertFileChange (c : CommitWithFiles) (fc : FileChange) :
    List (String × FileStats) → List (String × FileStats)
  | [] => [(fc.file, updateFileStats c fc (mkFileStats fc.file c.date))]
  | (k, s) :: rest =>
    if k = fc.file then (k, updateFileStats c fc s) :: rest
    else (k, s) :: insertFileChange c fc rest

/-- `FileAnalyzer.buildFileStats`: both nested loops. -/
def buildFileStats (commits : List CommitWithFiles) : List (String × FileStats) :=
  commits.foldl (fun m c => c.files.foldl (fun m' fc => insertFileChange c fc m') m) []

/-- The body of `FileAnalyzer.analyze` on a non-empty input (the `try`
block; its `catch` is unreachable because the embedded body is total).
`getHotspots` and `getLargestChanges` sort the one `files` array in
place, so the array is threaded through both sorts and the result's
`files` field is its final, `totalChanges`-sorted state. -/
def fileAnalyzeCore (c : CommitWithFiles) (cs : List CommitWithFiles) : FileAnalysis :=
  let commits := c :: cs
  let files0 := (buildFileStats commits).map Prod.snd
  let totalFiles := files0.length
  let totalChanges := files0.foldl (fun acc f => acc + f.totalChanges) 0
  let totalInsertions := files0.foldl (fun acc f => acc + f.totalInsertions) 0
  let totalDeletions := files0.foldl (fun acc f => acc + f.totalDeletions) 0
  let netChange := totalInsertions - totalDeletions
  let files1 := sortByDesc (fun f => f.changeCount) files0
  let hotspots := files1.take 10
  let files2 := sortByDesc (fun f => f.totalChanges) files1
  let largestChanges := files2.take 10
  { totalFiles := totalFiles
    totalChanges := totalChanges
    totalInsertions := totalInsertions
    totalDeletions := totalDeletions
    netChange := netChange
    hotspots := hotspots
    largestChanges := largestChanges
    files := files2 }

/-- `FileAnalyzer.analyze`: throws `AnalysisFailedError` on an empty
list, otherwise returns the aggregate. -/
def fileAnalyze (commits : List CommitWithFiles) : Except AnalysisError FileAnalysis :=
  match commits with
  | [] => Except.error (analysisFailedError "No commits to analyze")
  | c :: cs => Except.ok (fileAnalyzeCore c cs)

/-- Value of a counter map at a key, `0` when absent
(`m.get(k) || 0`). -/
def getCount (m : List (ℤ × ℕ)) (k : ℤ) : ℕ :=
  ((m.find? (fun p => p.1 = k)).map Prod.snd).getD 0

/-- First occurrences, in order, of the author keys of a commit list:
the key-iteration order of the author `Map`. -/
def firstOccurKeys (commits : List Commit) : List String :=
  commits.foldl (fun acc c => if authorKey c ∈ acc then acc else acc ++ [authorKey c]) []

/-- Total commit count stored in an author map. -/
def sumCounts (m : List (String × Author)) : ℕ :=
  (m.map (fun p => p.2.commitCount)).sum

/-- Every entry of the author map carries the key built from its own
stored name and email. -/
def KeysMatch (m : List (String × Author)) : Prop :=
  ∀ p ∈ m, p.1 = p.2.name ++ "<" ++ p.2.email ++ ">"

/-! Concrete inputs used by the counterexamples and witnesses. -/

/-- Two commits with the same email and different display names. -/
def exAlice : Commit := ⟨"h1", "Alice", "e@x", 0, "m1", "", ""⟩

/-- See `exAlice`. -/
def exAlicia : Commit := ⟨"h2", "Alicia", "e@x", 1000, "m2", "", ""⟩

/-- A commit on the UTC day after `exAlice`. -/
def exBob : Commit := ⟨"h3", "Bob", "b@x", 86400123, "m3", "", ""⟩

/-- A commit at 2024-01-15T23:30:00Z (UTC hour 23; hour 18 in a
UTC-5 environment). -/
def exLate : Commit := ⟨"a1", "Alice", "alice@example.com", 1705361400000, "Late", "", ""⟩

/-- A file change with more deletions than insertions. -/
def exShrink : FileChange := ⟨"a.ts", 6, 1, 5, false⟩

/-- A second file change, larger in volume, on another path. -/
def exGrow : FileChange := ⟨"b.ts", 30, 25, 5, false⟩

/-- A commit carrying `exShrink` and `exGrow`. -/
def exCommitWithFiles : CommitWithFiles :=
  ⟨"h1", "Alice", "e@x", 0, "m", "", "", [exShrink, exGrow], ⟨2, 26, 10⟩⟩

/-- A commit touching only `a.ts`, on the next UTC day. -/
def exCommitWithFiles2 : CommitWithFiles :=
  ⟨"h2", "Bob", "b@x", 86400123, "m2", "", "", [⟨"a.ts", 2, 1, 1, false⟩], ⟨1, 1, 1⟩⟩

/-- A commit whose only file change deletes more than it inserts. -/
def exCommitShrink : CommitWithFiles :=
  ⟨"h4", "Carol", "c@x", 0, "m4", "", "", [exShrink], ⟨1, 1, 5⟩⟩

section SortLemmas

variable {α β : Type} [LinearOrder β]

theorem sortByDesc_sorted (key : α → β) (l : List α) :
    (sortByDesc key l).Pairwise (fun a b => key b ≤ key a) :=
  List.sorted_insertionSort (descBy key) l

theorem sortByDesc_perm (key : α → β) (l : List α) :
    (sortByDesc key l).Perm l :=
  List.perm_insertionSort (descBy key) l

theorem orderedInsert_filter_key (key : α → β) (a : α) (c : β) : ∀ m : List α,
    (List.orderedInsert (descBy key) a m).filter (fun x => decide (key x = c))
      = ((a :: m).filter (fun x => decide (key x = c)))
  | [] => rfl
  | b :: m => by
    rw [List.orderedInsert]
    by_cases h : descBy key a b
    · rw [if_pos h]
    · rw [if_neg h]
      have hab : key a < key b := not_le.mp h
      by_cases hbc : key b = c
      · have hac : key a ≠ c := by rw [← hbc]; exact ne_of_lt hab
        simp only [List.filter_cons, hbc, hac, decide_True, decide_False, if_true, if_false,
          decide_eq_true_eq, ite_true, ite_false]
        rw [orderedInsert_filter_key key a c m]
        simp [List.filter_cons, hac]
      · simp only [List.filter_cons, hbc, decide_False, decide_eq_true_eq, ite_false]
        rw [orderedInsert_filter_key key a c m]
        by_cases hac : key a = c <;> simp [List.filter_cons, hac, hbc]

theorem sortByDesc_filter_key (key : α → β) (c : β) : ∀ l : List α,
    (sortByDesc key l).filter (fun x => decide (key x = c))
      = l.filter (fun x => decide (key x = c))
  | [] => rfl
  | a :: l => by
    show (List.orderedInsert (descBy key) a (sortByDesc key l)).filter _ = _
    rw [orderedInsert_filter_key]
    by_cases hac : key a = c <;>
      simp [List.filter_cons, hac, sortByDesc_filter_key key c l]

theorem filter_take_prefixOf (p : α → Bool) : ∀ (n : ℕ) (l : List α),
    (l.take n).filter p <+: l.filter p
  | _, [] => by simp
  | 0, a :: l => by simp
  | n + 1, a :: l => by
    rw [List.take_succ_cons]
    by_cases h : p a
    · simp only [List.filter_cons, h, if_true]
      obtain ⟨t, ht⟩ := filter_take_prefixOf p n l
      exact ⟨t, by rw [List.cons_append, ht]⟩
    · simp only [List.filter_cons, h, if_false]
      exact filter_take_prefixOf p n l

end SortLemmas

section AuthorMapLemmas

theorem sumCounts_insertCommitAuthor (c : Commit) : ∀ m : List (String × Author),
    sumCounts (insertCommitAuthor c m) = sumCounts m + 1
  | [] => by simp [insertCommitAuthor, sumCounts, updateAuthor, mkAuthor]
  | (k, a) :: m => by
    by_cases h : k = authorKey c
    · simp only [insertCommitAuthor, if_pos h, sumCounts, List.map_cons, List.sum_cons,
        updateAuthor]
      omega
    · have ih := sumCounts_insertCommitAuthor c m
      simp only [insertCommitAuthor, if_neg h, sumCounts, List.map_cons, List.sum_cons] at ih ⊢
      omega

theorem sumCounts_extractAuthors_aux :
    ∀ (cs : List Commit) (m : List (String × Author)),
      sumCounts (cs.foldl (fun acc c => insertCommitAuthor c acc) m)
        = sumCounts m + cs.length
  | [], _ => by simp
  | c :: cs, m => by
    rw [List.foldl_cons, sumCounts_extractAuthors_aux cs, sumCounts_insertCommitAuthor]
    simp only [List.length_cons]
    omega

theorem sumCounts_extractAuthors (cs : List Commit) :
    sumCounts (extractAuthors cs) = cs.length := by
  rw [extractAuthors, sumCounts_extractAuthors_aux]
  simp [sumCounts]

theorem keysMatch_insertCommitAuthor (c : Commit) : ∀ m : List (String × Author),
    KeysMatch m → KeysMatch (insertCommitAuthor c m)
  | [], _ => by
    intro p hp
    simp only [insertCommitAuthor, List.mem_singleton] at hp
    subst hp
    rfl
  | (k, a) :: m, h => by
    have hk := h (k, a) (List.mem_cons_self _ _)
    by_cases hkc : k = authorKey c
    · intro p hp
      simp only [insertCommitAuthor, if_pos hkc, List.mem_cons] at hp
      rcases hp with hp | hp
      · subst hp; exact hk
      · exact h p (List.mem_cons_of_mem _ hp)
    · intro p hp
      simp only [insertCommitAuthor, if_neg hkc, List.mem_cons] at hp
      rcases hp with hp | hp
      · subst hp; exact hk
      · exact keysMatch_insertCommitAuthor c m
          (fun q hq => h q (List.mem_cons_of_mem _ hq)) p hp

theorem mem_keys_insertCommitAuthor (c : Commit) (x : String) :
    ∀ m : List (String × Author),
      x ∈ (insertCommitAuthor c m).map Prod.fst →
        x ∈ m.map Prod.fst ∨ x = authorKey c
  | [] => by
    intro hx
    simp only [insertCommitAuthor, List.map_cons, List.map_nil, List.mem_singleton] at hx
    exact Or.inr hx
  | (k, a) :: m => by
    intro hx
    by_cases hkc : k = authorKey c
    · simp only [insertCommitAuthor, if_pos hkc, List.map_cons, List.mem_cons] at hx
      rcases hx with hx | hx
      · exact Or.inl (by simp [hx])
      · exact Or.inl (by simp [hx])
    · simp only [insertCommitAuthor, if_neg hkc, List.map_cons, List.mem_cons] at hx
      rcases hx with hx | hx
      · exact Or.inl (by simp [hx])
      · rcases mem_keys_insertCommitAuthor c x m hx with h | h
        · exact Or.inl (by simp [h])
        · exact Or.inr h

theorem nodup_keys_insertCommitAuthor (c : Commit) : ∀ m : List (String × Author),
    (m.map Prod.fst).Nodup → ((insertCommitAuthor c m).map Prod.fst).Nodup
  | [], _ => by simp [insertCommitAuthor]
  | (k, a) :: m, h => by
    simp only [List.map_cons, List.nodup_cons] at h
    by_cases hkc : k = authorKey c
    · simp only [insertCommitAuthor, if_pos hkc, List.map_cons, List.nodup_cons]
      exact h
    · simp only [insertCommitAuthor, if_neg hkc, List.map_cons, List.nodup_cons]
      refine ⟨fun hx => ?_, nodup_keys_insertCommitAuthor c m h.2⟩
      rcases mem_keys_insertCommitAuthor c k m hx with hx' | hx'
      · exact h.1 hx'
      · exact hkc hx'

theorem keys_insertCommitAuthor (c : Commit) : ∀ m : List (String × Author),
    (insertCommitAuthor c m).map Prod.fst
      = if authorKey c ∈ m.map Prod.fst then m.map Prod.fst
        else m.map Prod.fst ++ [authorKey c]
  | [] => by simp [insertCommitAuthor]
  | (k, a) :: m => by
    by_cases hkc : k = authorKey c
    · simp [insertCommitAuthor, hkc]
    · have ih := keys_insertCommitAuthor c m
      by_cases hmem : authorKey c ∈ m.map Prod.fst
      · simp only [insertCommitAuthor, if_neg hkc, List.map_cons, ih, if_pos hmem]
        rw [if_pos]
        simp [hmem]
      · simp only [insertCommitAuthor, if_neg hkc, List.map_cons, ih, if_neg hmem]
        rw [if_neg]
        · rfl
        · simp only [List.mem_cons]
          rintro (h | h)
          · exact hkc h.symm
          · exact hmem h

theorem keys_extractAuthors_aux :
    ∀ (cs : List Commit) (m : List (String × Author)),
      (cs.foldl (fun acc c => insertCommitAuthor c acc) m).map Prod.fst
        = cs.foldl (fun acc c => if authorKey c ∈ acc then acc else acc ++ [authorKey c])
            (m.map Prod.fst)
  | [], _ => rfl
  | c :: cs, m => by
    rw [List.foldl_cons, List.foldl_cons, keys_extractAuthors_aux cs,
      keys_insertCommitAuthor]

theorem keys_extractAuthors (cs : List Commit) :
    (extractAuthors cs).map Prod.fst = firstOccurKeys cs :=
  keys_extractAuthors_aux cs []

theorem keysMatch_extractAuthors_aux :
    ∀ (cs : List Commit) (m : List (String × Author)),
      KeysMatch m → KeysMatch (cs.foldl (fun acc c => insertCommitAuthor c acc) m)
  | [], _, h => h
  | c :: cs, m, h =>
    keysMatch_extractAuthors_aux cs _ (keysMatch_insertCommitAuthor c m h)

theorem keysMatch_extractAuthors (cs : List Commit) : KeysMatch (extractAuthors cs) :=
  keysMatch_extractAuthors_aux cs [] (by intro p hp; cases hp)

theorem nodup_keys_extractAuthors_aux :
    ∀ (cs : List Commit) (m : List (String × Author)),
      (m.map Prod.fst).Nodup →
        ((cs.foldl (fun acc c => insertCommitAuthor c acc) m).map Prod.fst).Nodup
  | [], _, h => h
  | c :: cs, m, h =>
    nodup_keys_extractAuthors_aux cs _ (nodup_keys_insertCommitAuthor c m h)

theorem nodup_keys_extractAuthors (cs : List Commit) :
    ((extractAuthors cs).map Prod.fst).Nodup :=
  nodup_keys_extractAuthors_aux cs [] (by simp)

theorem nodup_name_email_extractAuthors (cs : List Commit) :
    (((extractAuthors cs).map Prod.snd).map (fun a => (a.name, a.email))).Nodup := by
  have hmatch := keysMatch_extractAuthors cs
  have hkeys := nodup_keys_extractAuthors cs
  have hrw : (extractAuthors cs).map Prod.fst
      = ((extractAuthors cs).map Prod.snd).map (fun a => a.name ++ "<" ++ a.email ++ ">") := by
    rw [List.map_map]
    exact List.map_congr_left (fun p hp => hmatch p hp)
  rw [hrw] at hkeys
  have : (((extractAuthors cs).map Prod.snd).map
      ((fun q : String × String => q.1 ++ "<" ++ q.2 ++ ">") ∘ (fun a => (a.name, a.email)))).Nodup := by
    exact hkeys
  rw [← List.map_map] at this
  exact this.of_map _

end AuthorMapLemmas

section DateRangeLemmas

theorem foldl_min_le_init (cs : List Commit) : ∀ i : ℤ,
    cs.foldl (fun m x => min m x.date) i ≤ i := by
  induction cs with
  | nil => intro i; simp
  | cons c cs ih =>
    intro i
    calc cs.foldl (fun m x => min m x.date) (min i c.date) ≤ min i c.date := ih _
      _ ≤ i := min_le_left _ _

theorem foldl_min_le_mem (cs : List Commit) : ∀ (i : ℤ) (c : Commit), c ∈ cs →
    cs.foldl (fun m x => min m x.date) i ≤ c.date := by
  induction cs with
  | nil => intro _ _ h; cases h
  | cons d cs ih =>
    intro i c hc
    rcases List.mem_cons.mp hc with h | h
    · subst h
      calc cs.foldl (fun m x => min m x.date) (min i c.date) ≤ min i c.date :=
            foldl_min_le_init cs _
        _ ≤ c.date := min_le_right _ _
    · exact ih _ c h

theorem foldl_min_mem (cs : List Commit) : ∀ i : ℤ,
    cs.foldl (fun m x => min m x.date) i = i ∨
      cs.foldl (fun m x => min m x.date) i ∈ cs.map (fun c => c.date) := by
  induction cs with
  | nil => intro i; exact Or.inl rfl
  | cons c cs ih =>
    intro i
    rcases ih (min i c.date) with h | h
    · rcases min_choice i c.date with hm | hm
      · exact Or.inl (by rw [List.foldl_cons, h, hm])
      · exact Or.inr (by rw [List.foldl_cons, h, hm]; simp)
    · exact Or.inr (by rw [List.foldl_cons]; simp only [List.map_cons, List.mem_cons]; exact Or.inr h)

theorem foldl_max_init_le (cs : List Commit) : ∀ i : ℤ,
    i ≤ cs.foldl (fun m x => max m x.date) i := by
  induction cs with
  | nil => intro i; simp
  | cons c cs ih =>
    intro i
    calc i ≤ max i c.date := le_max_left _ _
      _ ≤ cs.foldl (fun m x => max m x.date) (max i c.date) := ih _

theorem foldl_max_mem_le (cs : List Commit) : ∀ (i : ℤ) (c : Commit), c ∈ cs →
    c.date ≤ cs.foldl (fun m x => max m x.date) i := by
  induction cs with
  | nil => intro _ _ h; cases h
  | cons d cs ih =>
    intro i c hc
    rcases List.mem_cons.mp hc with h | h
    · subst h
      calc c.date ≤ max i c.date := le_max_right _ _
        _ ≤ cs.foldl (fun m x => max m x.date) (max i c.date) := foldl_max_init_le cs _
    · exact ih _ c h

theorem foldl_max_mem (cs : List Commit) : ∀ i : ℤ,
    cs.foldl (fun m x => max m x.date) i = i ∨
      cs.foldl (fun m x => max m x.date) i ∈ cs.map (fun c => c.date) := by
  induction cs with
  | nil => intro i; exact Or.inl rfl
  | cons c cs ih =>
    intro i
    rcases ih (max i c.date) with h | h
    · rcases max_choice i c.date with hm | hm
      · exact Or.inl (by rw [List.foldl_cons, h, hm])
      · exact Or.inr (by rw [List.foldl_cons, h, hm]; simp)
    · exact Or.inr (by rw [List.foldl_cons]; simp only [List.map_cons, List.mem_cons]; exact Or.inr h)

theorem startOfUTCDay_mono {a b : ℤ} (h : a ≤ b) : startOfUTCDay a ≤ startOfUTCDay b := by
  unfold startOfUTCDay
  rw [Int.fdiv_eq_ediv _ (by norm_num), Int.fdiv_eq_ediv _ (by norm_num)]
  omega

theorem startOfUTCDay_diff (a b : ℤ) :
    startOfUTCDay b - startOfUTCDay a = 86400000 * (b.fdiv 86400000 - a.fdiv 86400000) := by
  unfold startOfUTCDay
  ring

theorem jsRoundDiv_day_mul (d : ℤ) : jsRoundDiv (86400000 * d) 86400000 = d := by
  unfold jsRoundDiv
  rw [Int.fdiv_eq_ediv _ (by norm_num)]
  omega

theorem fdiv_day_mul (d : ℤ) : (86400000 * d).fdiv 86400000 = d := by
  rw [Int.fdiv_eq_ediv _ (by norm_num)]
  omega

end DateRangeLemmas

section RoundingLemmas

theorem floor_intCast_div_intCast (a b : ℤ) (hb : 0 < b) :
    ⌊((a : ℚ) / (b : ℚ))⌋ = a / b := by
  lift b to ℕ using hb.le with n
  exact_mod_cast Rat.floor_intCast_div_natCast a n

theorem fdiv_eq_floor (a b : ℤ) (hb : 0 < b) :
    a.fdiv b = ⌊((a : ℚ) / (b : ℚ))⌋ := by
  rw [Int.fdiv_eq_ediv _ hb.le, floor_intCast_div_intCast a b hb]

theorem jsRound_eq_floor (q : ℚ) : jsRound q = ⌊q + 1 / 2⌋ := by
  have hden : (0 : ℤ) < 2 * (q.den : ℤ) := by positivity
  rw [jsRound, fdiv_eq_floor _ _ hden]
  congr 1
  have hq : ((q.num : ℚ) / (q.den : ℚ)) = q := Rat.num_div_den q
  have hd0 : ((q.den : ℚ)) ≠ 0 := by
    exact_mod_cast (Nat.cast_ne_zero (R := ℚ)).mpr q.den_nz
  rw [div_eq_iff hd0] at hq
  field_simp
  linear_combination 4 * hq

theorem jsRoundDiv_eq_jsRound (a b : ℤ) (hb : 0 < b) :
    jsRoundDiv a b = jsRound ((a : ℚ) / (b : ℚ)) := by
  rw [jsRound_eq_floor, jsRoundDiv, fdiv_eq_floor _ _ (by positivity)]
  congr 1
  have hb0 : ((b : ℚ)) ≠ 0 := by exact_mod_cast hb.ne'
  field_simp
  ring

theorem calculateAverageCommitsPerDay_eq (t : ℕ) (s : ℤ) (hs : 1 ≤ s) :
    calculateAverageCommitsPerDay t s = roundTo2 ((t : ℚ) / (s : ℚ)) := by
  have hs0 : (0 : ℤ) < s := hs
  rw [calculateAverageCommitsPerDay, roundTo2, jsRoundDiv_eq_jsRound _ _ hs0]
  congr 3
  have hsq : ((s : ℚ)) ≠ 0 := by exact_mod_cast hs0.ne'
  push_cast
  field_simp
  ring

end RoundingLemmas

section FileSumLemmas

theorem foldl_add_map {γ : Type} (f : γ → ℤ) : ∀ (l : List γ) (i : ℤ),
    l.foldl (fun acc x => acc + f x) i = i + (l.map f).sum
  | [], i => by simp
  | x :: l, i => by
    rw [List.foldl_cons, foldl_add_map f l]
    simp only [List.map_cons, List.sum_cons]
    ring

theorem sum_map_sortByDesc {α β : Type} [LinearOrder β] (key : α → β) (f : α → ℤ)
    (l : List α) : ((sortByDesc key l).map f).sum = (l.map f).sum :=
  ((sortByDesc_perm key l).map f).sum_eq

end FileSumLemmas

section MoreDateLemmas

theorem fdiv_day_mono {a b : ℤ} (h : a ≤ b) : a.fdiv 86400000 ≤ b.fdiv 86400000 := by
  rw [Int.fdiv_eq_ediv _ (by norm_num), Int.fdiv_eq_ediv _ (by norm_num)]
  omega

theorem calculateDateRange_eq (c : Commit) (cs : List Commit) :
    calculateDateRange c cs =
      { earliest := cs.foldl (fun m x => min m x.date) c.date
        latest := cs.foldl (fun m x => max m x.date) c.date
        spanDays :=
          (cs.foldl (fun m x => max m x.date) c.date).fdiv 86400000
            - (cs.foldl (fun m x => min m x.date) c.date).fdiv 86400000 + 1 } := by
  have hEL : cs.foldl (fun m x => min m x.date) c.date
      ≤ cs.foldl (fun m x => max m x.date) c.date :=
    le_trans (foldl_min_le_init cs c.date) (foldl_max_init_le cs c.date)
  have hd : 0 ≤ (cs.foldl (fun m x => max m x.date) c.date).fdiv 86400000
      - (cs.foldl (fun m x => min m x.date) c.date).fdiv 86400000 := by
    have := fdiv_day_mono hEL
    omega
  simp only [calculateDateRange, startOfUTCDay_diff, jsRoundDiv_day_mul]
  rw [if_neg (by omega)]

theorem authors_keys_eq (cs : List Commit) :
    ((extractAuthors cs).map Prod.snd).map (fun a => a.name ++ "<" ++ a.email ++ ">")
      = firstOccurKeys cs := by
  have hmatch := keysMatch_extractAuthors cs
  rw [← keys_extractAuthors cs, List.map_map]
  exact (List.map_congr_left (fun p hp => (hmatch p hp).symm))

end MoreDateLemmas

/-! Claim theorems. -/

/-- C1, counterexample: two commits with the same author email `e@x` but
different display names `Alice` / `Alicia` produce two distinct
`AuthorStat` entries, so the authors list does not contain at most one
entry per distinct email. -/
theorem c1_email_dedup_counterexample :
    (commitAnalyze 0 [exAlice, exAlicia]).toOption.map
        (fun r => r.authors.map (fun a => (a.name, a.email, a.commitCount)))
      = some [("Alice", "e@x", 1), ("Alicia", "e@x", 1)] := by decide

/-- C1, amended: author statistics are deduplicated by the composite
`name<email>` key, so the result's authors list contains at most one
entry per distinct (display name, email) pair — two commits with the
same email but different display names yield two separate entries. -/
theorem c1_authors_dedup_by_name_email_pair (tz : ℤ) (cs : List Commit)
    (r : CommitAnalysis) (hr : commitAnalyze tz cs = Except.ok r) :
    (r.authors.map (fun a => (a.name, a.email))).Nodup := by
  cases cs with
  | nil => cases hr
  | cons c cs =>
    simp only [commitAnalyze, Except.ok.injEq] at hr
    subst hr
    exact nodup_name_email_extractAuthors (c :: cs)

/-- C1, witness for the amended theorem at a concrete input. -/
theorem c1_authors_dedup_witness :
    commitAnalyze 0 [exAlice, exAlicia]
        = Except.ok (commitAnalyzeCore 0 exAlice [exAlicia]) ∧
      (((commitAnalyzeCore 0 exAlice [exAlicia]).authors.map
        (fun a => (a.name, a.email))).Nodup) :=
  ⟨rfl, c1_authors_dedup_by_name_email_pair 0 [exAlice, exAlicia] _ rfl⟩

/-- C2, counterexample: on the empty list both analyzers fail with
`AnalysisFailedError` (`ANALYSIS_FAILED`), the very same error class the
`catch` blocks use to wrap processing failures — there is no distinct
empty-input error kind. -/
theorem c2_empty_error_counterexample :
    commitAnalyze 0 [] = Except.error (analysisFailedError "No commits to analyze") ∧
    fileAnalyze [] = Except.error (analysisFailedError "No commits to analyze") ∧
    (analysisFailedError "No commits to analyze").type
      = (analysisFailedError "Failed to analyze commits").type :=
  ⟨rfl, rfl, rfl⟩

/-- C2, amended: for the empty input list both analyzers fail — no
result is returned — with `AnalysisFailedError` of type
`ANALYSIS_FAILED` and message `Analysis failed: No commits to analyze`;
this is the same failure kind used to wrap processing failures, and the
code has no separate `EmptyInputError`. -/
theorem c2_empty_input_fails (tz : ℤ) :
    commitAnalyze tz [] = Except.error (analysisFailedError "No commits to analyze") ∧
    fileAnalyze [] = Except.error (analysisFailedError "No commits to analyze") ∧
    (analysisFailedError "No commits to analyze").type
      = AnalysisErrorType.ANALYSIS_FAILED :=
  ⟨rfl, rfl, rfl⟩

/-- C3, code-bug evidence: the hour histogram of a commit at
2024-01-15T23:30:00Z (UTC hour 23), analyzed in a UTC-5 environment
(offset −300 minutes), counts the commit in bucket 18 — the local hour —
and leaves bucket 23 at zero, while the histogram still has exactly the
keys 0–23.  The repository's own test "should group commits by UTC hour,
not local hour" demands the count at the UTC hour. -/
theorem c3_hour_histogram_uses_local_hour :
    hourOfDay 0 exLate.date = 23 ∧
    hourOfDay (-300) exLate.date = 18 ∧
    (commitAnalyze (-300) [exLate]).toOption.map
        (fun r => (getCount r.commitsByHour 23, getCount r.commitsByHour 18))
      = some (0, 1) ∧
    (commitAnalyze (-300) [exLate]).toOption.map (fun r => r.commitsByHour.map Prod.fst)
      = some ((List.range 24).map Int.ofNat) := by
  refine ⟨by decide, by decide, by decide, by decide⟩

/-- C6: for every successful commit analysis, the commit counts of all
author entries sum to `totalCommits` — every commit is attributed to
exactly one author entry. -/
theorem c6_author_counts_sum_to_total (tz : ℤ) (cs : List Commit)
    (r : CommitAnalysis) (hr : commitAnalyze tz cs = Except.ok r) :
    (r.authors.map (fun a => a.commitCount)).sum = r.totalCommits := by
  cases cs with
  | nil => cases hr
  | cons c cs =>
    simp only [commitAnalyze, Except.ok.injEq] at hr
    subst hr
    show (((extractAuthors (c :: cs)).map Prod.snd).map (fun a => a.commitCount)).sum
      = (c :: cs).length
    rw [List.map_map]
    exact sumCounts_extractAuthors (c :: cs)

/-- C6, witness at a concrete input. -/
theorem c6_author_counts_witness :
    commitAnalyze 0 [exAlice, exAlicia]
        = Except.ok (commitAnalyzeCore 0 exAlice [exAlicia]) ∧
      ((commitAnalyzeCore 0 exAlice [exAlicia]).authors.map
          (fun a => a.commitCount)).sum
        = (commitAnalyzeCore 0 exAlice [exAlicia]).totalCommits :=
  ⟨rfl, c6_author_counts_sum_to_total 0 [exAlice, exAlicia] _ rfl⟩

/-- C8: both analyzers are deterministic pure functions of their input —
two calls on the same input that succeed return structurally equal
results. -/
theorem c8_analyze_deterministic (tz : ℤ) (cs : List Commit)
    (fcs : List CommitWithFiles) (r₁ r₂ : CommitAnalysis) (s₁ s₂ : FileAnalysis)
    (h1 : commitAnalyze tz cs = Except.ok r₁) (h2 : commitAnalyze tz cs = Except.ok r₂)
    (h3 : fileAnalyze fcs = Except.ok s₁) (h4 : fileAnalyze fcs = Except.ok s₂) :
    r₁ = r₂ ∧ s₁ = s₂ := by
  rw [h1] at h2
  rw [h3] at h4
  exact ⟨Except.ok.inj h2, Except.ok.inj h4⟩

/-- C4: for every successful commit analysis, the day span equals the
difference between the latest and earliest commit timestamps after
UTC-day normalization, in days, plus 1; it is at least 1, and equals 1
when both endpoints fall on the same UTC day; earliest/latest are the
minimum/maximum commit timestamps of the input. -/
theorem c4_date_range_span (tz : ℤ) (cs : List Commit) (r : CommitAnalysis)
    (hr : commitAnalyze tz cs = Except.ok r) :
    r.dateRange.spanDays
        = (startOfUTCDay r.dateRange.latest - startOfUTCDay r.dateRange.earliest).fdiv 86400000
            + 1 ∧
    1 ≤ r.dateRange.spanDays ∧
    (startOfUTCDay r.dateRange.latest = startOfUTCDay r.dateRange.earliest →
      r.dateRange.spanDays = 1) ∧
    (∀ c ∈ cs, r.dateRange.earliest ≤ c.date ∧ c.date ≤ r.dateRange.latest) ∧
    r.dateRange.earliest ∈ cs.map (fun c => c.date) ∧
    r.dateRange.latest ∈ cs.map (fun c => c.date) := by
  cases cs with
  | nil => cases hr
  | cons c cs =>
    simp only [commitAnalyze, Except.ok.injEq] at hr
    subst hr
    have hdr : (commitAnalyzeCore tz c cs).dateRange = calculateDateRange c cs := rfl
    rw [hdr, calculateDateRange_eq]
    have hmono := fdiv_day_mono
      (le_trans (foldl_min_le_init cs c.date) (foldl_max_init_le cs c.date))
    dsimp only
    refine ⟨?_, by omega, ?_, ?_, ?_, ?_⟩
    · rw [startOfUTCDay_diff, fdiv_day_mul]
    · intro h
      simp only [startOfUTCDay] at h
      omega
    · intro x hx
      rcases List.mem_cons.mp hx with h | h
      · subst h
        exact ⟨foldl_min_le_init cs x.date, foldl_max_init_le cs x.date⟩
      · exact ⟨foldl_min_le_mem cs c.date x h, foldl_max_mem_le cs c.date x h⟩
    · rcases foldl_min_mem cs c.date with h | h
      · rw [h]; simp
      · simp only [List.map_cons, List.mem_cons]; exact Or.inr h
    · rcases foldl_max_mem cs c.date with h | h
      · rw [h]; simp
      · simp only [List.map_cons, List.mem_cons]; exact Or.inr h

/-- C4, witness: a two-day input has span 2 ≥ 1, and a same-day input
has span exactly 1. -/
theorem c4_date_range_span_witness :
    commitAnalyze 0 [exAlice, exBob] = Except.ok (commitAnalyzeCore 0 exAlice [exBob]) ∧
    1 ≤ (commitAnalyzeCore 0 exAlice [exBob]).dateRange.spanDays ∧
    (commitAnalyzeCore 0 exAlice [exAlicia]).dateRange.spanDays = 1 :=
  ⟨rfl, (c4_date_range_span 0 [exAlice, exBob] _ rfl).2.1,
    (c4_date_range_span 0 [exAlice, exAlicia] _ rfl).2.2.1 (by decide)⟩

/-- C5: for every successful commit analysis, the average commits per
day equals `totalCommits / spanDays` rounded half-up to two decimal
places, and the divisor `spanDays` is at least 1. -/
theorem c5_average_commits_per_day (tz : ℤ) (cs : List Commit) (r : CommitAnalysis)
    (hr : commitAnalyze tz cs = Except.ok r) :
    r.averageCommitsPerDay
        = roundTo2 ((r.totalCommits : ℚ) / (r.dateRange.spanDays : ℚ)) ∧
    1 ≤ r.dateRange.spanDays := by
  cases cs with
  | nil => cases hr
  | cons c cs =>
    simp only [commitAnalyze, Except.ok.injEq] at hr
    subst hr
    have hspan : 1 ≤ (calculateDateRange c cs).spanDays := by
      rw [calculateDateRange_eq]
      have := fdiv_day_mono
        (le_trans (foldl_min_le_init cs c.date) (foldl_max_init_le cs c.date))
      dsimp only
      omega
    exact ⟨calculateAverageCommitsPerDay_eq (c :: cs).length _ hspan, hspan⟩

/-- C5, witness at a two-day, two-commit input (average 1.00). -/
theorem c5_average_commits_per_day_witness :
    commitAnalyze 0 [exAlice, exBob] = Except.ok (commitAnalyzeCore 0 exAlice [exBob]) ∧
    (commitAnalyzeCore 0 exAlice [exBob]).averageCommitsPerDay
        = roundTo2 (((commitAnalyzeCore 0 exAlice [exBob]).totalCommits : ℚ)
            / ((commitAnalyzeCore 0 exAlice [exBob]).dateRange.spanDays : ℚ)) ∧
    1 ≤ (commitAnalyzeCore 0 exAlice [exBob]).dateRange.spanDays :=
  ⟨rfl, (c5_average_commits_per_day 0 [exAlice, exBob] _ rfl).1,
    (c5_average_commits_per_day 0 [exAlice, exBob] _ rfl).2⟩

/-- C7: for every successful file analysis, `netChange` equals
`totalInsertions − totalDeletions`, and the three totals are the sums of
the corresponding per-file fields over the result's files collection. -/
theorem c7_net_change (cs : List CommitWithFiles) (r : FileAnalysis)
    (hr : fileAnalyze cs = Except.ok r) :
    r.netChange = r.totalInsertions - r.totalDeletions ∧
    r.totalChanges = (r.files.map (fun f => f.totalChanges)).sum ∧
    r.totalInsertions = (r.files.map (fun f => f.totalInsertions)).sum ∧
    r.totalDeletions = (r.files.map (fun f => f.totalDeletions)).sum := by
  cases cs with
  | nil => cases hr
  | cons c cs =>
    simp only [fileAnalyze, Except.ok.injEq] at hr
    subst hr
    have hfiles : (fileAnalyzeCore c cs).files
        = sortByDesc (fun f => f.totalChanges)
            (sortByDesc (fun f => f.changeCount)
              ((buildFileStats (c :: cs)).map Prod.snd)) := rfl
    refine ⟨rfl, ?_, ?_, ?_⟩
    · show ((buildFileStats (c :: cs)).map Prod.snd).foldl
          (fun acc f => acc + f.totalChanges) 0 = _
      rw [hfiles, foldl_add_map, sum_map_sortByDesc, sum_map_sortByDesc, zero_add]
    · show ((buildFileStats (c :: cs)).map Prod.snd).foldl
          (fun acc f => acc + f.totalInsertions) 0 = _
      rw [hfiles, foldl_add_map, sum_map_sortByDesc, sum_map_sortByDesc, zero_add]
    · show ((buildFileStats (c :: cs)).map Prod.snd).foldl
          (fun acc f => acc + f.totalDeletions) 0 = _
      rw [hfiles, foldl_add_map, sum_map_sortByDesc, sum_map_sortByDesc, zero_add]

/-- C7, witness: at a one-commit input that deletes more than it
inserts, the identity holds and the net change is negative. -/
theorem c7_net_change_witness :
    fileAnalyze [exCommitShrink] = Except.ok (fileAnalyzeCore exCommitShrink []) ∧
    (fileAnalyzeCore exCommitShrink []).netChange
        = (fileAnalyzeCore exCommitShrink []).totalInsertions
            - (fileAnalyzeCore exCommitShrink []).totalDeletions ∧
    (fileAnalyzeCore exCommitShrink []).netChange < 0 :=
  ⟨rfl, (c7_net_change [exCommitShrink] _ rfl).1, by decide⟩

/-- C9: for every successful commit analysis, the top-author ranking is
sorted by commit count descending, has at most 10 entries, within each
tied commit count is a prefix of the authors list restricted to that
count (stable tie-break), and the authors list itself is in
first-occurrence order of the identity keys in the input. -/
theorem c9_top_authors_stable_ranking (tz : ℤ) (cs : List Commit) (r : CommitAnalysis)
    (hr : commitAnalyze tz cs = Except.ok r) :
    r.topAuthors.Pairwise (fun a b => b.commitCount ≤ a.commitCount) ∧
    r.topAuthors.length ≤ 10 ∧
    (∀ n : ℕ, r.topAuthors.filter (fun a => decide (a.commitCount = n))
        <+: r.authors.filter (fun a => decide (a.commitCount = n))) ∧
    r.authors.map (fun a => a.name ++ "<" ++ a.email ++ ">") = firstOccurKeys cs := by
  cases cs with
  | nil => cases hr
  | cons c cs =>
    simp only [commitAnalyze, Except.ok.injEq] at hr
    subst hr
    have htop : (commitAnalyzeCore tz c cs).topAuthors
        = (sortByDesc (fun a => a.commitCount)
            ((extractAuthors (c :: cs)).map Prod.snd)).take 10 := rfl
    have hauth : (commitAnalyzeCore tz c cs).authors
        = (extractAuthors (c :: cs)).map Prod.snd := rfl
    rw [htop, hauth]
    refine ⟨?_, ?_, ?_, ?_⟩
    · exact List.Pairwise.sublist (List.take_sublist _ _) (sortByDesc_sorted _ _)
    · rw [List.length_take]; exact min_le_left _ _
    · intro n
      have h1 := filter_take_prefixOf (fun a : Author => decide (a.commitCount = n)) 10
        (sortByDesc (fun a => a.commitCount) ((extractAuthors (c :: cs)).map Prod.snd))
      have h2 : (sortByDesc (fun a : Author => a.commitCount)
            ((extractAuthors (c :: cs)).map Prod.snd)).filter
              (fun a => decide (a.commitCount = n))
          = ((extractAuthors (c :: cs)).map Prod.snd).filter
              (fun a => decide (a.commitCount = n)) :=
        sortByDesc_filter_key _ n _
      rw [h2] at h1
      exact h1
    · exact authors_keys_eq (c :: cs)

/-- C9, witness at an input with a tied commit count. -/
theorem c9_top_authors_stable_ranking_witness :
    commitAnalyze 0 [exAlice, exAlicia]
        = Except.ok (commitAnalyzeCore 0 exAlice [exAlicia]) ∧
    (commitAnalyzeCore 0 exAlice [exAlicia]).topAuthors.Pairwise
        (fun a b => b.commitCount ≤ a.commitCount) ∧
    (commitAnalyzeCore 0 exAlice [exAlicia]).topAuthors.length ≤ 10 ∧
    ((commitAnalyzeCore 0 exAlice [exAlicia]).topAuthors.filter
          (fun a => decide (a.commitCount = 1))
        <+: (commitAnalyzeCore 0 exAlice [exAlicia]).authors.filter
          (fun a => decide (a.commitCount = 1))) ∧
    (commitAnalyzeCore 0 exAlice [exAlicia]).authors.map
        (fun a => a.name ++ "<" ++ a.email ++ ">")
      = firstOccurKeys [exAlice, exAlicia] :=
  ⟨rfl, (c9_top_authors_stable_ranking 0 [exAlice, exAlicia] _ rfl).1,
    (c9_top_authors_stable_ranking 0 [exAlice, exAlicia] _ rfl).2.1,
    (c9_top_authors_stable_ranking 0 [exAlice, exAlicia] _ rfl).2.2.1 1,
    (c9_top_authors_stable_ranking 0 [exAlice, exAlicia] _ rfl).2.2.2⟩

/-- C10: for every successful file analysis, the full files collection
is sorted in non-increasing order of `totalChanges` (the last in-place
sort), and when there are at most 10 files it equals the
largest-changes ranking element for element. -/
theorem c10_files_sorted_by_total_changes (cs : List CommitWithFiles) (r : FileAnalysis)
    (hr : fileAnalyze cs = Except.ok r) :
    r.files.Pairwise (fun a b => b.totalChanges ≤ a.totalChanges) ∧
    (r.files.length ≤ 10 → r.files = r.largestChanges) := by
  cases cs with
  | nil => cases hr
  | cons c cs =>
    simp only [fileAnalyze, Except.ok.injEq] at hr
    subst hr
    have hfiles : (fileAnalyzeCore c cs).files
        = sortByDesc (fun f => f.totalChanges)
            (sortByDesc (fun f => f.changeCount)
              ((buildFileStats (c :: cs)).map Prod.snd)) := rfl
    have hlarge : (fileAnalyzeCore c cs).largestChanges
        = (sortByDesc (fun f => f.totalChanges)
            (sortByDesc (fun f => f.changeCount)
              ((buildFileStats (c :: cs)).map Prod.snd))).take 10 := rfl
    rw [hfiles, hlarge]
    constructor
    · exact sortByDesc_sorted _ _
    · intro h
      exact (List.take_of_length_le h).symm

/-- C10, witness at a two-file input. -/
theorem c10_files_sorted_witness :
    fileAnalyze [exCommitWithFiles] = Except.ok (fileAnalyzeCore exCommitWithFiles []) ∧
    (fileAnalyzeCore exCommitWithFiles []).files.Pairwise
        (fun a b => b.totalChanges ≤ a.totalChanges) ∧
    (fileAnalyzeCore exCommitWithFiles []).files
      = (fileAnalyzeCore exCommitWithFiles []).largestChanges :=
  ⟨rfl, (c10_files_sorted_by_total_changes [exCommitWithFiles] _ rfl).1,
    (c10_files_sorted_by_total_changes [exCommitWithFiles] _ rfl).2 (by decide)⟩

/-- C8, witness at concrete inputs. -/
theorem c8_analyze_deterministic_witness :
    commitAnalyze 0 [exAlice] = Except.ok (commitAnalyzeCore 0 exAlice []) ∧
    fileAnalyze [exCommitWithFiles] = Except.ok (fileAnalyzeCore exCommitWithFiles []) ∧
    (commitAnalyzeCore 0 exAlice [] = commitAnalyzeCore 0 exAlice [] ∧
      fileAnalyzeCore exCommitWithFiles [] = fileAnalyzeCore exCommitWithFiles []) :=
  ⟨rfl, rfl,
    c8_analyze_deterministic 0 [exAlice] [exCommitWithFiles] _ _ _ _ rfl rfl rfl rfl⟩

end GitAnalyzer
